import Mathlib

namespace NewsNotifier

/-- JavaScript strings are modelled as lists of characters: `.length`,
`.slice`, concatenation and index search translate to list operations. -/
abbrev Str := List Char

/-- Shorthand turning a Lean string literal into the `Str` model. -/
def str (s : String) : Str := s.toList

/-- Characters removed by JavaScript `String.prototype.trim`
(ASCII whitespace; exotic Unicode space characters do not occur in the
strings this development reasons about). -/
def isJsWs (c : Char) : Bool :=
  c = ' ' || c = '\t' || c = '\n' || c = '\r' || c = '\x0b' || c = '\x0c'

/-- JavaScript `String.prototype.trim`: drop whitespace from both ends. -/
def jsTrim (s : Str) : Str :=
  ((s.dropWhile isJsWs).reverse.dropWhile isJsWs).reverse

/-- The two-character separator string `"\n\n"`. -/
def nl2 : Str := ['\n', '\n']

/-- Model of `text.lastIndexOf('\n\n')` from `MessageFormatter._findSplitPoint`,
as an optional start index (JS returns -1 when the substring is absent). -/
def lastNl2 (t : Str) : Option Nat :=
  ((List.range t.length).filter (fun i => (t.drop i).take 2 = nl2)).getLast?

/-- Model of `text.lastIndexOf('\n')` from `MessageFormatter._findSplitPoint`,
as an optional index. -/
def lastNl (t : Str) : Option Nat :=
  ((List.range t.length).filter (fun i => (t.drop i).take 1 = ['\n'])).getLast?

/-- The single-newline fallback inside `MessageFormatter._findSplitPoint`
(lines 189-196): try the last `'\n'`, else hard-cut at 90%. The JS float
comparison `newline > text.length * 0.8` and `Math.floor(text.length * 0.9)`
are modelled exactly over the integers as `10 * j > 8 * len` and
`9 * len / 10` (floor division). -/
def findSplitPointNl (t : Str) : Nat :=
  match lastNl t with
  | some j => if 10 * j > 8 * t.length then j + 1 else 9 * t.length / 10
  | none => 9 * t.length / 10

/-- Model of `MessageFormatter._findSplitPoint`: last `"\n\n"` boundary if after 70%
of the text, else last `'\n'` if after 80%, else a hard cut at 90%.
The JS float comparison `articleBoundary > text.length * 0.7` is modelled
exactly as `10 * i > 7 * len`. -/
def findSplitPoint (t : Str) : Nat :=
  match lastNl2 t with
  | some i => if 10 * i > 7 * t.length then i + 2 else findSplitPointNl t
  | none => findSplitPointNl t

/-- The inner `while (currentChunk.length > maxLength)` loop of
`MessageFormatter._splitIntoChunks` (lines 148-153), with explicit fuel:
the JS loop need not terminate for adversarial header/`L` combinations,
so the model returns `none` when the fuel runs out. State: the current
chunk and the chunks emitted so far. -/
def hardSplitLoop (header : Str) (L : Nat) : Nat → Str → List Str → Option (List Str × Str)
  | 0, cur, acc => if cur.length > L then none else some (acc, cur)
  | fuel + 1, cur, acc =>
      if cur.length > L then
        hardSplitLoop header L fuel
          (header ++ nl2 ++ jsTrim (cur.drop (findSplitPoint (cur.take L))) ++ nl2)
          (acc ++ [cur.take (findSplitPoint (cur.take L))])
      else some (acc, cur)

/-- One iteration of the `for (const section of sections)` loop in
`MessageFormatter._splitIntoChunks` (lines 134-157), acting on the state
(emitted chunks, current chunk). -/
def packSection (header : Str) (L fuel : Nat) (st : List Str × Str) (s : Str) : Option (List Str × Str) :=
  if (st.2 ++ s ++ nl2).length > L then
    hardSplitLoop header L fuel (header ++ nl2 ++ s ++ nl2)
      (if st.2.length > header.length + 2 then st.1 ++ [st.2] else st.1)
  else some (st.1, st.2 ++ s ++ nl2)

/-- The whole `for` loop of `MessageFormatter._splitIntoChunks` over the
section list. -/
def packSections (header : Str) (L fuel : Nat) : List Str → List Str × Str → Option (List Str × Str)
  | [], st => some st
  | s :: rest, st =>
      match packSection header L fuel st s with
      | some st' => packSections header L fuel rest st'
      | none => none

/-- The footer step of `MessageFormatter._splitIntoChunks` (lines
159-175): append the footer to the last open chunk when it fits, else
emit a separate `header + footer` chunk; fall back to a single
`header + footer` chunk when nothing was emitted at all. -/
def finishChunks (header footer : Str) (L : Nat) (st : List Str × Str) : List Str :=
  let chunks' :=
    if (st.2 ++ footer).length > L then
      (if st.2.length > header.length + 2 then st.1 ++ [st.2] else st.1) ++
        [header ++ nl2 ++ footer]
    else
      if (st.2 ++ footer).length > header.length + 2 then st.1 ++ [st.2 ++ footer] else st.1
  if chunks'.length > 0 then chunks' else [header ++ nl2 ++ footer]

/-- Model of `MessageFormatter._splitIntoChunks(header, sections, footer)` with the
chunk ceiling `L` (`DISCORD_CONFIG.maxLength`, 2000 in production) made an
explicit parameter, plus fuel for the inner hard-split loop. -/
def splitIntoChunks (fuel : Nat) (header : Str) (sections : List Str) (footer : Str) (L : Nat) : Option (List Str) :=
  (packSections header L fuel sections ([], header ++ nl2)).map (finishChunks header footer L)

/-- The part of an emitted chunk after its leading `header ++ "\n\n"`:
the chunk's own (non-header-repeated) content. -/
def chunkBody (header c : Str) : Str := c.drop (header.length + 2)

/-- The packed form of the input sections: each section followed by the
`"\n\n"` separator the packer appends to it. -/
def sectionsBody (sections : List Str) : Str :=
  (sections.map (fun s => s ++ nl2)).flatten

/-! ## URL model

`Article._normalizeUrl` and `DiscordNotifier.isValidWebhookUrl` use the
platform `URL` class (WHATWG). The model below covers hierarchical
`scheme://host/path?query` URLs built from a conservative character set on
which the platform class is the identity up to host/scheme lower-casing
and `searchParams` round-tripping; every other string is rejected
(`parseUrl` returns `none`, matching the constructor throwing or the model
declining to commit to exotic re-serialization behaviour). -/

/-- Characters accepted in a hostname by the URL model. -/
def hostOk (c : Char) : Bool := c.isAlphanum || c = '-' || c = '.'

/-- Characters accepted in a path by the URL model (a subset of RFC 3986
`pchar` that the WHATWG serializer keeps verbatim; `'.'` is excluded so no
dot-segment normalization can occur). -/
def pathOk (c : Char) : Bool := c.isAlphanum || c = '/' || c = '-' || c = '_' || c = '~' || c = ':' || c = '@'

/-- Characters accepted in a query key or value by the URL model (exactly
the characters `URLSearchParams` serializes verbatim). -/
def queryOk (c : Char) : Bool := c.isAlphanum || c = '-' || c = '.' || c = '_' || c = '*'

/-- A parsed URL: scheme and host are stored lower-cased, the path always
starts with `'/'` (an empty input path reads as `"/"`), and the query is
the ordered `searchParams` key/value list. -/
structure JsUrl where
  scheme : Str
  host : Str
  path : Str
  query : List (Str × Str)
deriving DecidableEq, Repr

/-- Split a list at the first occurrence of a character, returning the
parts before and after it (the separator removed). -/
def splitAtChar (sep : Char) : Str → Option (Str × Str)
  | [] => none
  | c :: rest =>
      if c = sep then some ([], rest)
      else match splitAtChar sep rest with
        | some (a, b) => some (c :: a, b)
        | none => none

/-- Split a list on every occurrence of a character. -/
def splitOnChar (sep : Char) : Str → List Str
  | [] => [[]]
  | c :: rest =>
      let r := splitOnChar sep rest
      if c = sep then [] :: r
      else match r with
        | a :: t => (c :: a) :: t
        | [] => [[c]]

/-- Parse one `key=value` query pair (key nonempty, both from the safe
character set). -/
def parseQueryPair (s : Str) : Option (Str × Str) :=
  match splitAtChar '=' s with
  | some (k, v) =>
      if k ≠ [] && k.all queryOk && v.all queryOk then some (k, v) else none
  | none => none

/-- Parse a query string (the part after `'?'`) into ordered pairs. -/
def parseQuery (s : Str) : Option (List (Str × Str)) :=
  if s = [] then none
  else (splitOnChar '&' s).mapM parseQueryPair

/-- Model of `new URL(s)` restricted as described above: scheme before the first
`':'` (nonempty, alphabetic, lower-cased), followed by `"//"`, a nonempty
host (lower-cased), an optional `/path` and an optional `?query`. -/
def parseUrl (s : Str) : Option JsUrl :=
  match splitAtChar ':' s with
  | none => none
  | some (scheme, rest) =>
      if scheme ≠ [] && scheme.all Char.isAlpha && rest.take 2 = str "//" then
        let afterSlashes := rest.drop 2
        let hostPart := afterSlashes.takeWhile (fun c => c ≠ '/' && c ≠ '?')
        let pathQuery := afterSlashes.dropWhile (fun c => c ≠ '/' && c ≠ '?')
        let pathPart := pathQuery.takeWhile (fun c => c ≠ '?')
        let queryTail := pathQuery.dropWhile (fun c => c ≠ '?')
        if hostPart ≠ [] && hostPart.all hostOk && pathPart.all pathOk then
          let path := if pathPart = [] then ['/'] else pathPart
          match queryTail with
          | [] => some ⟨scheme.map Char.toLower, hostPart.map Char.toLower, path, []⟩
          | _ :: q =>
              match parseQuery q with
              | some pairs => some ⟨scheme.map Char.toLower, hostPart.map Char.toLower, path, pairs⟩
              | none => none
        else none
      else none

/-- Model of the `URLSearchParams` serialization: `k=v` pairs joined with `'&'`. -/
def serializeQuery (q : List (Str × Str)) : Str :=
  match q with
  | [] => []
  | [(k, v)] => k ++ ['='] ++ v
  | (k, v) :: rest => k ++ ['='] ++ v ++ ['&'] ++ serializeQuery rest

/-- Model of `url.toString()`: `scheme://host` ++ path, with `?query`
when the search-parameter list is nonempty. -/
def serializeUrl (u : JsUrl) : Str :=
  u.scheme ++ str "://" ++ u.host ++ u.path ++
    (if u.query = [] then [] else '?' :: serializeQuery u.query)

/-- The fixed tracking-parameter removal set of `Article._normalizeUrl`. -/
def utmParams : List Str :=
  [str "utm_source", str "utm_medium", str "utm_campaign", str "utm_term", str "utm_content"]

/-- The `urlObj.searchParams.delete(param)` loop: drop every query pair
whose key is in the removal set. -/
def removeUtm (u : JsUrl) : JsUrl :=
  { u with query := u.query.filter (fun kv => decide (kv.1 ∉ utmParams)) }

/-! ## Article model (`src/models/Article.js`) -/

/-- The trim-and-strip-trailing-slash preprocessing of
`Article._normalizeUrl` (lines 56-61), applied before URL parsing. -/
def preNorm (u : Str) : Str :=
  let n := jsTrim u
  if n.getLast? = some '/' then n.dropLast else n

/-- Model of `Article._normalizeUrl` on a non-nullish argument: empty string maps
to itself (the `!url` guard), else trim, strip one trailing slash, and if
the result parses as a URL, delete the tracking parameters and
re-serialize; unparseable strings are returned as-is. -/
def normalizeUrlStr (u : Str) : Str :=
  if u = [] then []
  else
    match parseUrl (preNorm u) with
    | some obj => serializeUrl (removeUtm obj)
    | none => preNorm u

/-- Model of `Article._normalizeUrl` including the nullish case (`url` absent /
`null` / `undefined` modelled as `none`; both falsy string cases return
`''`). -/
def normalizeUrl (u : Option Str) : Str :=
  match u with
  | none => []
  | some s => normalizeUrlStr s

/-- Model of `crypto.createHash('sha256')...digest('hex')` as an injective
function on the input string (the identity): collision-freeness of SHA-256
is assumed, so fingerprints are compared through their preimages. -/
def sha256Model (s : Str) : Str := s

/-- Model of `Article._sanitize`: trim and collapse inner whitespace runs; the
collapse is irrelevant to every claim, so only the trim is modelled. -/
def sanitizeTitle (t : Option Str) : Str :=
  match t with
  | none => []
  | some s => jsTrim s

/-- Constructor inputs of `Article` (fields the claims mention; `none`
models an absent / `null` / `undefined` value). -/
structure ArticleIn where
  title : Option Str
  url : Option Str
  source : Str
  publishedAt : Option Str
deriving DecidableEq, Repr

/-- The constructed `Article`: `url` is the normalized URL and `id` is the
SHA-256 of `source + ':' + url` (`Article._generateId`). -/
structure Article where
  title : Str
  url : Str
  source : Str
  publishedAt : Option Str
  id : Str
deriving DecidableEq, Repr

/-- The `Article` constructor (lines 7-19). -/
def mkArticle (a : ArticleIn) : Article :=
  { title := sanitizeTitle a.title
    url := normalizeUrl a.url
    source := a.source
    publishedAt := a.publishedAt
    id := sha256Model (a.source ++ [':'] ++ normalizeUrl a.url) }

/-- Model of `Article.getHash`: returns the precomputed `id`. -/
def getHash (a : Article) : Str := a.id

/-! ## Cache and deduplication
(`src/services/CacheService.js`, `src/services/DeduplicationService.js`) -/

/-- The `articles` object of the persisted store: source key to an
ordered association list of `hash -> first-seen timestamp`. -/
abbrev CacheArticles := List (Str × List (Str × Str))

/-- The in-memory cache object. -/
structure CacheModel where
  version : Str
  lastUpdated : Str
  articles : CacheArticles
deriving DecidableEq, Repr

/-- The `CACHE_CONFIG.version` string from `config/constants.js`. -/
def cacheVersion : Str := str "1.0"

/-- Model of `CacheService._createEmptyCache()` at time `now`. -/
def emptyCache (now : Str) : CacheModel :=
  ⟨cacheVersion, now,
    [(str "hackernews", []), (str "qiita", []), (str "zenn", [])]⟩

/-- Model of `CacheService.has(hash)`: true when the hash is a key of *any* source
partition. -/
def cacheHas (c : CacheModel) (h : Str) : Bool :=
  c.articles.any (fun p => p.2.any (fun e => e.1 = h))

/-- Insert-or-overwrite a key in an association list (object property
assignment). -/
def assocSet (l : List (Str × Str)) (k v : Str) : List (Str × Str) :=
  if l.any (fun e => e.1 = k) then l.map (fun e => if e.1 = k then (k, v) else e)
  else l ++ [(k, v)]

/-- Model of `CacheService.add(source, hash, timestamp)`: create the partition when
missing, then set the hash entry. -/
def cacheAdd (c : CacheModel) (source h ts : Str) : CacheModel :=
  if c.articles.any (fun p => p.1 = source) then
    { c with articles := c.articles.map (fun p => if p.1 = source then (p.1, assocSet p.2 h ts) else p) }
  else
    { c with articles := c.articles ++ [(source, [(h, ts)])] }

/-- Model of `article.publishedAt?.toISOString()` with the `CacheService.add`
fallback to the current time. -/
def tsOf (now : Str) (a : Article) : Str := a.publishedAt.getD now

/-- Model of `DeduplicationService.filterNew` (lines 28-47) in state-passing form:
keep each article whose hash is not yet in the cache and record its hash
the moment it is selected. Returns the kept articles (in input order) and
the updated cache. -/
def filterNew (now : Str) : CacheModel → List Article → List Article × CacheModel
  | c, [] => ([], c)
  | c, a :: rest =>
      if cacheHas c (getHash a) then filterNew now c rest
      else
        let p := filterNew now (cacheAdd c a.source (getHash a) (tsOf now a)) rest
        (a :: p.1, p.2)

/-- The persisted state `CacheService.load` finds on disk. -/
inductive DiskData where
  | absent
  | malformed (raw : Str)
  | stored (c : CacheModel)
deriving DecidableEq, Repr

/-- Outcome of `CacheService.load`: in-memory cache, the disk state after
the call, and whether an error was raised to the caller. -/
structure LoadResult where
  cache : CacheModel
  disk : DiskData
  raised : Bool
deriving DecidableEq, Repr

/-- Model of `CacheService.load` (lines 24-50), with `save()` modelled as
succeeding (a write that persists the in-memory cache): missing file and
malformed JSON reset to the empty cache *and save it*; a well-formed store
with a mismatched version is replaced in memory by the empty cache but the
branch contains no `save()` call, so the disk is left unchanged; no branch
raises. -/
def loadModel (now : Str) : DiskData → LoadResult
  | .absent => ⟨emptyCache now, .stored (emptyCache now), false⟩
  | .malformed _ => ⟨emptyCache now, .stored (emptyCache now), false⟩
  | .stored c =>
      if c.version ≠ cacheVersion then ⟨emptyCache now, .stored c, false⟩
      else ⟨c, .stored c, false⟩

/-! ## Retry handler (`src/utils/RetryHandler.js`) -/

/-- The `RetryHandler` configuration (`RETRY_CONFIG` defaults are
`maxRetries = 3`, `baseDelay = 1000`, `maxDelay = 10000`, `jitter = true`). -/
structure RetryConfig where
  maxRetries : Nat
  baseDelay : Nat
  maxDelay : Nat
  jitter : Bool
deriving DecidableEq, Repr

/-- Model of `RetryHandler._calculateDelay(attempt)`: exponential delay
`baseDelay * 2^attempt` capped at `maxDelay`, multiplied by the jitter
factor `r = 0.5 + Math.random()` when jitter is on, then `Math.floor`.
The float arithmetic is modelled exactly over the rationals, with `r`
passed explicitly. -/
def calculateDelay (cfg : RetryConfig) (r : ℚ) (a : Nat) : ℤ :=
  ⌊(if cfg.jitter then min ((cfg.baseDelay : ℚ) * 2 ^ a) (cfg.maxDelay : ℚ) * r
     else min ((cfg.baseDelay : ℚ) * 2 ^ a) (cfg.maxDelay : ℚ))⌋

/-- The `for (let attempt = 0; attempt <= maxRetries; attempt++)` loop of
`RetryHandler.execute`, from attempt index `a` with `rem` further attempts
allowed. The wrapped operation is modelled by its per-invocation outcomes
`fn`, the jitter draws by `rs`. Returns (outcome, number of invocations
made, total delay slept). On a failure with no attempts left the caught
error is rethrown unchanged (`fn a` itself is returned). -/
def executeGo (fn : Nat → Except E A) (cfg : RetryConfig) (rs : Nat → ℚ) : Nat → Nat → Except E A × Nat × ℤ
  | a, 0 => (fn a, 1, 0)
  | a, rem + 1 =>
      match fn a with
      | .ok v => (.ok v, 1, 0)
      | .error _ =>
          let p := executeGo fn cfg rs (a + 1) rem
          (p.1, p.2.1 + 1, calculateDelay cfg (rs a) a + p.2.2)

/-- Model of `RetryHandler.execute`: run the attempt loop from attempt 0 with
`maxRetries` retries allowed. -/
def execute (fn : Nat → Except E A) (cfg : RetryConfig) (rs : Nat → ℚ) : Except E A × Nat × ℤ :=
  executeGo fn cfg rs 0 cfg.maxRetries

/-! ## Discord notifier (`src/services/DiscordNotifier.js`) -/

/-- Model of `DiscordNotifier.isValidWebhookUrl` (lines 113-127): the URL must
parse with hostname `discord.com` and a pathname starting with
`/api/webhooks/`. -/
def isValidWebhookUrl (url : Str) : Bool :=
  if url = [] then false
  else
    match parseUrl url with
    | some u => u.host = str "discord.com" && u.path.take (str "/api/webhooks/").length = str "/api/webhooks/"
    | none => false

/-- Model of `DiscordNotifier.send(messages)` (lines 23-46) as its delivery
control-flow: raise iff the configured webhook URL is falsy (empty),
otherwise every message is posted in order (transport and retry wrapper
modelled as succeeding — the claim is about the pre-network gate). The
`ok` payload lists the message bodies handed to the transport. -/
def sendModel (webhookUrl : Str) (messages : List Str) : Except Str (List Str) :=
  if webhookUrl = [] then .error (str "DISCORD_WEBHOOK_URL is not set")
  else .ok messages

/-! ## Supporting lemmas for the message packer -/

theorem mem_of_getLast?_eq {α : Type} {l : List α} {a : α} (h : l.getLast? = some a) : a ∈ l := by
  obtain ⟨hne, rfl⟩ := List.mem_getLast?_eq_getLast (show a ∈ l.getLast? from h)
  exact List.getLast_mem hne

theorem lastNl2_le {t : Str} {i : Nat} (h : lastNl2 t = some i) : i + 2 ≤ t.length := by
  have hm := mem_of_getLast?_eq h
  rw [List.mem_filter] at hm
  obtain ⟨_, hp⟩ := hm
  have hp' : (t.drop i).take 2 = nl2 := by simpa using hp
  have hl : ((t.drop i).take 2).length = 2 := by rw [hp']; rfl
  rw [List.length_take, List.length_drop] at hl
  omega

theorem lastNl_le {t : Str} {j : Nat} (h : lastNl t = some j) : j + 1 ≤ t.length := by
  have hm := mem_of_getLast?_eq h
  rw [List.mem_filter] at hm
  obtain ⟨_, hp⟩ := hm
  have hp' : (t.drop j).take 1 = ['\n'] := by simpa using hp
  have hl : ((t.drop j).take 1).length = 1 := by rw [hp']; rfl
  rw [List.length_take, List.length_drop] at hl
  omega

theorem ninety_percent_le (n : Nat) : 9 * n / 10 ≤ n := by
  have h1 : (9 * n / 10) * 10 ≤ 9 * n := Nat.div_mul_le_self _ _
  have h2 : (9 * n / 10) * 10 ≤ n * 10 := by omega
  exact Nat.le_of_mul_le_mul_right h2 (by norm_num)

theorem findSplitPointNl_le (t : Str) : findSplitPointNl t ≤ t.length := by
  cases h : lastNl t with
  | none => simp only [findSplitPointNl, h]; exact ninety_percent_le _
  | some j =>
      have hb := lastNl_le h
      simp only [findSplitPointNl, h]
      split
      · omega
      · exact ninety_percent_le _

theorem findSplitPoint_le (t : Str) : findSplitPoint t ≤ t.length := by
  cases h : lastNl2 t with
  | none => simp only [findSplitPoint, h]; exact findSplitPointNl_le t
  | some i =>
      have hb := lastNl2_le h
      simp only [findSplitPoint, h]
      split
      · omega
      · exact findSplitPointNl_le t

theorem hardSplitLoop_le {header : Str} {L : Nat} :
    ∀ {fuel : Nat} {cur : Str} {acc : List Str} {out : List Str × Str},
      hardSplitLoop header L fuel cur acc = some out →
      (∀ c ∈ acc, c.length ≤ L) →
      (∀ c ∈ out.1, c.length ≤ L) ∧ out.2.length ≤ L := by
  intro fuel
  induction fuel with
  | zero =>
      intro cur acc out h hacc
      by_cases hgt : cur.length > L
      · rw [show hardSplitLoop header L 0 cur acc = if cur.length > L then none else some (acc, cur) from rfl, if_pos hgt] at h
        exact absurd h (by simp)
      · rw [show hardSplitLoop header L 0 cur acc = if cur.length > L then none else some (acc, cur) from rfl, if_neg hgt] at h
        obtain rfl := Option.some.inj h
        exact ⟨hacc, Nat.le_of_not_lt hgt⟩
  | succ n ih =>
      intro cur acc out h hacc
      by_cases hgt : cur.length > L
      · rw [show hardSplitLoop header L (n + 1) cur acc =
            if cur.length > L then
              hardSplitLoop header L n
                (header ++ nl2 ++ jsTrim (cur.drop (findSplitPoint (cur.take L))) ++ nl2)
                (acc ++ [cur.take (findSplitPoint (cur.take L))])
            else some (acc, cur) from rfl, if_pos hgt] at h
        refine ih h ?_
        intro c hc
        rw [List.mem_append] at hc
        rcases hc with hc | hc
        · exact hacc c hc
        · rw [List.mem_singleton] at hc
          subst hc
          have hsp : findSplitPoint (cur.take L) ≤ L := by
            have := findSplitPoint_le (cur.take L)
            rw [List.length_take] at this
            omega
          rw [List.length_take]
          omega
      · rw [show hardSplitLoop header L (n + 1) cur acc =
            if cur.length > L then
              hardSplitLoop header L n
                (header ++ nl2 ++ jsTrim (cur.drop (findSplitPoint (cur.take L))) ++ nl2)
                (acc ++ [cur.take (findSplitPoint (cur.take L))])
            else some (acc, cur) from rfl, if_neg hgt] at h
        obtain rfl := Option.some.inj h
        exact ⟨hacc, Nat.le_of_not_lt hgt⟩

theorem packSection_le {header : Str} {L fuel : Nat} {st st' : List Str × Str} {s : Str}
    (h : packSection header L fuel st s = some st')
    (h1 : ∀ c ∈ st.1, c.length ≤ L) (h2 : st.2.length ≤ L) :
    (∀ c ∈ st'.1, c.length ≤ L) ∧ st'.2.length ≤ L := by
  by_cases htest : (st.2 ++ s ++ nl2).length > L
  · simp only [packSection, if_pos htest] at h
    refine hardSplitLoop_le h ?_
    intro c hc
    by_cases hpush : st.2.length > header.length + 2
    · rw [if_pos hpush, List.mem_append] at hc
      rcases hc with hc | hc
      · exact h1 c hc
      · rw [List.mem_singleton] at hc
        subst hc
        exact h2
    · rw [if_neg hpush] at hc
      exact h1 c hc
  · simp only [packSection, if_neg htest] at h
    obtain rfl := Option.some.inj h
    exact ⟨h1, Nat.le_of_not_lt htest⟩

theorem packSections_le {header : Str} {L fuel : Nat} :
    ∀ {sections : List Str} {st st' : List Str × Str},
      packSections header L fuel sections st = some st' →
      (∀ c ∈ st.1, c.length ≤ L) → st.2.length ≤ L →
      (∀ c ∈ st'.1, c.length ≤ L) ∧ st'.2.length ≤ L := by
  intro sections
  induction sections with
  | nil =>
      intro st st' h h1 h2
      obtain rfl : st = st' := by simpa [packSections] using h
      exact ⟨h1, h2⟩
  | cons s rest ih =>
      intro st st' h h1 h2
      simp only [packSections] at h
      cases hstep : packSection header L fuel st s with
      | none => rw [hstep] at h; exact absurd h (by simp)
      | some stm =>
          rw [hstep] at h
          obtain ⟨g1, g2⟩ := packSection_le hstep h1 h2
          exact ih h g1 g2

theorem finishChunks_le {header footer : Str} {L : Nat} {st : List Str × Str}
    (hHF : header.length + 2 + footer.length ≤ L)
    (h1 : ∀ c ∈ st.1, c.length ≤ L) (h2 : st.2.length ≤ L) :
    ∀ c ∈ finishChunks header footer L st, c.length ≤ L := by
  intro c hc
  have hHFlen : (header ++ nl2 ++ footer).length ≤ L := by
    simp only [List.length_append]
    simp only [nl2] at hHF ⊢
    simpa using hHF
  by_cases hov : L < st.2.length + footer.length
  · by_cases hpush : header.length + 2 < st.2.length
    · rw [show finishChunks header footer L st = st.1 ++ [st.2] ++ [header ++ nl2 ++ footer] by
        simp [finishChunks, hov, hpush]] at hc
      rw [List.mem_append, List.mem_append] at hc
      rcases hc with (hc | hc) | hc
      · exact h1 c hc
      · rw [List.mem_singleton] at hc; subst hc; exact h2
      · rw [List.mem_singleton] at hc; subst hc; exact hHFlen
    · rw [show finishChunks header footer L st = st.1 ++ [header ++ nl2 ++ footer] by
        simp [finishChunks, hov, hpush]] at hc
      rw [List.mem_append] at hc
      rcases hc with hc | hc
      · exact h1 c hc
      · rw [List.mem_singleton] at hc; subst hc; exact hHFlen
  · by_cases hpush : header.length + 2 < st.2.length + footer.length
    · rw [show finishChunks header footer L st = st.1 ++ [st.2 ++ footer] by
        simp [finishChunks, hov, hpush]] at hc
      rw [List.mem_append] at hc
      rcases hc with hc | hc
      · exact h1 c hc
      · rw [List.mem_singleton] at hc
        subst hc
        rw [List.length_append]
        omega
    · by_cases hne : 0 < st.1.length
      · rw [show finishChunks header footer L st = st.1 by
          simp [finishChunks, hov, hpush, hne]] at hc
        exact h1 c hc
      · rw [show finishChunks header footer L st = [header ++ nl2 ++ footer] by
          simp [finishChunks, hov, hpush, hne]] at hc
        rw [List.mem_singleton] at hc; subst hc; exact hHFlen

/-! ## C1: packing ceiling -/

/-- C1 (counterexample): the claim "every chunk in the list returned by
`_splitIntoChunks` has length `<= L`, including the fallback
`header + '\n\n' + footer` chunk" is false: with header `"HHHHHH"`,
no sections, footer `"F"` and `L = 5`, the single emitted chunk
`"HHHHHH\n\nF"` has length 9 > 5. -/
theorem c1_counterexample :
    splitIntoChunks 100 (str "HHHHHH") [] (str "F") 5 = some [str "HHHHHH\n\nF"] ∧
      ¬ (str "HHHHHH\n\nF").length ≤ 5 := by
  constructor
  · rfl
  · decide

/-- C1 (amended): every chunk emitted by `_splitIntoChunks` has length
`<= L`, provided `header.length + 2 + footer.length <= L` (the
`header + "\n\n" + footer` chunks of the footer-overflow and no-section
paths are emitted without any length check, so the bound fails exactly
when that combination itself exceeds `L`). -/
theorem c1_packing_ceiling (fuel : Nat) (header : Str) (sections : List Str) (footer : Str)
    (L : Nat) (chunks : List Str)
    (hHF : header.length + 2 + footer.length ≤ L)
    (h : splitIntoChunks fuel header sections footer L = some chunks) :
    ∀ c ∈ chunks, c.length ≤ L := by
  rw [splitIntoChunks, Option.map_eq_some'] at h
  obtain ⟨st, hps, rfl⟩ := h
  have hinit1 : ∀ c ∈ ([] : List Str), c.length ≤ L := by intro c hc; exact absurd hc (by simp)
  have hinit2 : (header ++ nl2).length ≤ L := by
    rw [List.length_append]
    simp only [nl2]
    simp only [List.length_cons, List.length_nil]
    omega
  obtain ⟨g1, g2⟩ := packSections_le hps hinit1 hinit2
  exact finishChunks_le hHF g1 g2

/-- C1 (witness): concrete instance of the amended ceiling theorem with
header `"H"`, one section `"AA"`, footer `"F"`, `L = 10`. -/
theorem c1_witness : (str "H\n\nAA\n\nF").length ≤ 10 :=
  c1_packing_ceiling 1 (str "H") [str "AA"] (str "F") 10 [str "H\n\nAA\n\nF"]
    (by decide) (by rfl) (str "H\n\nAA\n\nF") (by simp)

/-! ## C2: packing completeness -/

theorem take_append_left {a b : Str} {n : Nat} (h : n ≤ a.length) :
    (a ++ b).take n = a.take n := by
  rw [List.take_append_eq_append_take]
  simp [Nat.sub_eq_zero_of_le h]

theorem drop_append_left {a b : Str} {n : Nat} (h : n ≤ a.length) :
    (a ++ b).drop n = a.drop n ++ b := by
  rw [List.drop_append_eq_append_drop]
  simp [Nat.sub_eq_zero_of_le h]

theorem hardSplitLoop_of_le {header : Str} {L : Nat} {cur : Str} (acc : List Str)
    (hle : cur.length ≤ L) :
    ∀ fuel, hardSplitLoop header L fuel cur acc = some (acc, cur) := by
  intro fuel
  cases fuel with
  | zero =>
      rw [show hardSplitLoop header L 0 cur acc
        = if cur.length > L then none else some (acc, cur) from rfl, if_neg (by omega)]
  | succ n =>
      rw [show hardSplitLoop header L (n + 1) cur acc
        = if cur.length > L then
            hardSplitLoop header L n
              (header ++ nl2 ++ jsTrim (cur.drop (findSplitPoint (cur.take L))) ++ nl2)
              (acc ++ [cur.take (findSplitPoint (cur.take L))])
          else some (acc, cur) from rfl, if_neg (by omega)]

theorem length_header_nl2 (header : Str) : (header ++ nl2).length = header.length + 2 := by
  rw [List.length_append]
  simp [nl2]

theorem packSection_content {header : Str} {L fuel : Nat} {st st' : List Str × Str} {s : Str}
    (h : packSection header L fuel st s = some st')
    (hlen : header.length + s.length + 4 ≤ L)
    (hpre : st.2.take (header.length + 2) = header ++ nl2) :
    st'.2.take (header.length + 2) = header ++ nl2 ∧
    (st'.1.map (chunkBody header)).flatten ++ chunkBody header st'.2
      = (st.1.map (chunkBody header)).flatten ++ chunkBody header st.2 ++ (s ++ nl2) := by
  have hge : header.length + 2 ≤ st.2.length := by
    have hl := congrArg List.length hpre
    rw [List.length_take, length_header_nl2] at hl
    omega
  by_cases htest : (st.2 ++ s ++ nl2).length > L
  · simp only [packSection, if_pos htest] at h
    have hfit : (header ++ nl2 ++ s ++ nl2).length ≤ L := by
      simp only [List.length_append]
      simp only [nl2, List.length_cons, List.length_nil]
      omega
    rw [hardSplitLoop_of_le _ hfit] at h
    obtain rfl := Option.some.inj h
    have htake : (header ++ nl2 ++ s ++ nl2).take (header.length + 2) = header ++ nl2 := by
      rw [take_append_left (by rw [List.length_append, length_header_nl2]; omega),
        take_append_left (by rw [length_header_nl2]),
        show header.length + 2 = (header ++ nl2).length from (length_header_nl2 header).symm,
        List.take_length]
    have hdrop : chunkBody header (header ++ nl2 ++ s ++ nl2) = s ++ nl2 := by
      unfold chunkBody
      rw [drop_append_left (by rw [List.length_append, length_header_nl2]; omega),
        drop_append_left (by rw [length_header_nl2]),
        show header.length + 2 = (header ++ nl2).length from (length_header_nl2 header).symm,
        List.drop_length]
      simp
    refine ⟨htake, ?_⟩
    rw [hdrop]
    by_cases hpush : st.2.length > header.length + 2
    · rw [if_pos hpush]
      simp [List.append_assoc]
    · rw [if_neg hpush]
      have hst2 : st.2 = header ++ nl2 := by
        rw [← hpre, List.take_of_length_le (by omega)]
      have hbody : chunkBody header st.2 = [] := by
        unfold chunkBody
        rw [hst2, show header.length + 2 = (header ++ nl2).length from (length_header_nl2 header).symm,
          List.drop_length]
      rw [hbody]
      simp
  · simp only [packSection, if_neg htest] at h
    obtain rfl := Option.some.inj h
    have htake : (st.2 ++ s ++ nl2).take (header.length + 2) = header ++ nl2 := by
      rw [take_append_left (by rw [List.length_append]; omega), take_append_left hge, hpre]
    have hdrop : chunkBody header (st.2 ++ s ++ nl2) = chunkBody header st.2 ++ s ++ nl2 := by
      unfold chunkBody
      rw [drop_append_left (by rw [List.length_append]; omega), drop_append_left hge]
    refine ⟨htake, ?_⟩
    rw [hdrop]
    simp [List.append_assoc]

theorem packSections_content {header : Str} {L fuel : Nat} :
    ∀ {sections : List Str} {st st' : List Str × Str},
      packSections header L fuel sections st = some st' →
      (∀ s ∈ sections, header.length + s.length + 4 ≤ L) →
      st.2.take (header.length + 2) = header ++ nl2 →
      st'.2.take (header.length + 2) = header ++ nl2 ∧
      (st'.1.map (chunkBody header)).flatten ++ chunkBody header st'.2
        = (st.1.map (chunkBody header)).flatten ++ chunkBody header st.2 ++ sectionsBody sections := by
  intro sections
  induction sections with
  | nil =>
      intro st st' h _ hpre
      obtain rfl : st = st' := by simpa [packSections] using h
      exact ⟨hpre, by simp [sectionsBody]⟩
  | cons s rest ih =>
      intro st st' h hs hpre
      simp only [packSections] at h
      cases hstep : packSection header L fuel st s with
      | none => rw [hstep] at h; exact absurd h (by simp)
      | some stm =>
          rw [hstep] at h
          obtain ⟨m1, m2⟩ := packSection_content hstep (hs s (by simp)) hpre
          obtain ⟨f1, f2⟩ := ih h (fun x hx => hs x (by simp [hx])) m1
          refine ⟨f1, ?_⟩
          rw [f2, m2]
          simp [sectionsBody, List.append_assoc]

theorem finishChunks_content {header footer : Str} {L : Nat} {st : List Str × Str}
    (hpre : st.2.take (header.length + 2) = header ++ nl2) :
    ((finishChunks header footer L st).map (chunkBody header)).flatten
      = (st.1.map (chunkBody header)).flatten ++ chunkBody header st.2 ++ footer := by
  have hge : header.length + 2 ≤ st.2.length := by
    have hl := congrArg List.length hpre
    rw [List.length_take, length_header_nl2] at hl
    omega
  have hbodyHF : chunkBody header (header ++ nl2 ++ footer) = footer := by
    unfold chunkBody
    rw [drop_append_left (by rw [length_header_nl2]),
      show header.length + 2 = (header ++ nl2).length from (length_header_nl2 header).symm,
      List.drop_length]
    simp
  by_cases hov : L < st.2.length + footer.length
  · by_cases hpush : header.length + 2 < st.2.length
    · rw [show finishChunks header footer L st = st.1 ++ [st.2] ++ [header ++ nl2 ++ footer] by
        simp [finishChunks, hov, hpush]]
      simp only [List.map_append, List.flatten_append, List.map_cons, List.map_nil,
        List.flatten_cons, List.flatten_nil, hbodyHF]
      simp [List.append_assoc]
    · have hst2 : st.2 = header ++ nl2 := by
        rw [← hpre, List.take_of_length_le (by omega)]
      have hbody : chunkBody header st.2 = [] := by
        unfold chunkBody
        rw [hst2, show header.length + 2 = (header ++ nl2).length from (length_header_nl2 header).symm,
          List.drop_length]
      rw [show finishChunks header footer L st = st.1 ++ [header ++ nl2 ++ footer] by
        simp [finishChunks, hov, hpush]]
      simp only [List.map_append, List.flatten_append, List.map_cons, List.map_nil,
        List.flatten_cons, List.flatten_nil, hbodyHF, hbody]
      simp
  · by_cases hpush : header.length + 2 < st.2.length + footer.length
    · rw [show finishChunks header footer L st = st.1 ++ [st.2 ++ footer] by
        simp [finishChunks, hov, hpush]]
      have hbody2 : chunkBody header (st.2 ++ footer) = chunkBody header st.2 ++ footer := by
        unfold chunkBody
        rw [drop_append_left hge]
      simp only [List.map_append, List.flatten_append, List.map_cons, List.map_nil,
        List.flatten_cons, List.flatten_nil, hbody2]
      simp [List.append_assoc]
    · have hfoot : footer = [] := by
        have : footer.length = 0 := by omega
        exact List.eq_nil_of_length_eq_zero this
      have hst2 : st.2 = header ++ nl2 := by
        rw [← hpre, List.take_of_length_le (by omega)]
      have hbody : chunkBody header st.2 = [] := by
        unfold chunkBody
        rw [hst2, show header.length + 2 = (header ++ nl2).length from (length_header_nl2 header).symm,
          List.drop_length]
      by_cases hne : 0 < st.1.length
      · rw [show finishChunks header footer L st = st.1 by
          simp [finishChunks, hov, hpush, hne]]
        rw [hbody, hfoot]
        simp
      · have hnil : st.1 = [] := by
          cases hl : st.1 with
          | nil => rfl
          | cons a t => rw [hl] at hne; exact absurd (by simp) hne
        rw [show finishChunks header footer L st = [header ++ nl2 ++ footer] by
          simp [finishChunks, hov, hpush, hne]]
        rw [hnil, hbody, hfoot]
        simp only [List.map_cons, List.map_nil, List.flatten_cons, List.flatten_nil]
        rw [show chunkBody header (header ++ nl2 ++ []) = [] by
          unfold chunkBody
          rw [List.append_nil,
            show header.length + 2 = (header ++ nl2).length from (length_header_nl2 header).symm,
            List.drop_length]]
        simp

/-- C2 (counterexample): the claim that concatenating the chunks with the
repeated header/footer deleted reproduces every section exactly (also
across hard splits) is false: with header `"H"`, the single section
`"aaaaaa   bb"`, empty footer and `L = 10`, the hard split runs the
remainder through `trim()`, deleting the three spaces — the reassembled
content is `"aaaaaabb\n\n"`, not `"aaaaaa   bb\n\n"`. -/
theorem c2_counterexample :
    splitIntoChunks 100 (str "H") [str "aaaaaa   bb"] (str "") 10
        = some [str "H\n\naaaaaa", str "H\n\nbb\n\n"] ∧
      ¬ (([str "H\n\naaaaaa", str "H\n\nbb\n\n"].map (chunkBody (str "H"))).flatten
          = sectionsBody [str "aaaaaa   bb"] ++ str "") := by
  constructor
  · rfl
  · decide

/-- C2 (amended): when no section needs hard-splitting (each section fits
in a chunk of its own: `header.length + s.length + 4 <= L`), the
concatenation of the chunk bodies (each chunk with its repeated
`header + "\n\n"` removed, the footer staying wherever it was attached)
is exactly the sections in original order, each followed by its `"\n\n"`
separator, followed by the footer — nothing omitted, duplicated or
altered. -/
theorem c2_packing_completeness (fuel : Nat) (header : Str) (sections : List Str) (footer : Str)
    (L : Nat) (chunks : List Str)
    (hs : ∀ s ∈ sections, header.length + s.length + 4 ≤ L)
    (h : splitIntoChunks fuel header sections footer L = some chunks) :
    (chunks.map (chunkBody header)).flatten = sectionsBody sections ++ footer := by
  rw [splitIntoChunks, Option.map_eq_some'] at h
  obtain ⟨st, hps, rfl⟩ := h
  have hinit : (header ++ nl2).take (header.length + 2) = header ++ nl2 := by
    rw [show header.length + 2 = (header ++ nl2).length from (length_header_nl2 header).symm,
      List.take_length]
  obtain ⟨f1, f2⟩ := packSections_content hps hs hinit
  rw [finishChunks_content f1, f2]
  have hbody0 : chunkBody header (header ++ nl2) = [] := by
    unfold chunkBody
    rw [show header.length + 2 = (header ++ nl2).length from (length_header_nl2 header).symm,
      List.drop_length]
  rw [hbody0]
  simp

/-- C2 (witness): concrete instance of the amended completeness theorem
with header `"H"`, sections `["AA"]`, footer `"F"`, `L = 10`. -/
theorem c2_witness :
    ([str "H\n\nAA\n\nF"].map (chunkBody (str "H"))).flatten
      = sectionsBody [str "AA"] ++ str "F" :=
  c2_packing_completeness 1 (str "H") [str "AA"] (str "F") 10 [str "H\n\nAA\n\nF"]
    (by decide) (by rfl)

/-! ## C9: the header/footer scenario with `L = 5` -/

/-- C9 (counterexample): the claimed scenario output is wrong. With
header `"H"`, footer `"F"`, `L = 5` and sections `["AAAA", "BB"]` the
packer does not emit two chunks: `"H\n\nAAAA"` already has length 8 > 5,
so `"AAAA"` is hard-split and nine chunks are emitted. -/
theorem c9_counterexample :
    (splitIntoChunks 100 (str "H") [str "AAAA", str "BB"] (str "F") 5).map List.length = some 9 ∧
      ¬ (splitIntoChunks 100 (str "H") [str "AAAA", str "BB"] (str "F") 5).map List.length = some 2 := by
  constructor
  · rfl
  · intro hcontra
    rw [show (splitIntoChunks 100 (str "H") [str "AAAA", str "BB"] (str "F") 5).map List.length
      = some 9 from rfl] at hcontra
    exact absurd (Option.some.inj hcontra) (by decide)

/-- C9 (amended): with header `"H"` (length 1), footer `"F"` (length 1),
`L = 5` and sections `["AAAA", "BB"]`, a fresh chunk `"H\n\nAAAA\n\n"`
exceeds `L`, so both sections are repeatedly hard-split (the 90% cut of
the 5-character window lands at index 4) and the packer emits nine
chunks, the last being the separate `"H\n\nF"` footer chunk. -/
theorem c9_actual_output :
    splitIntoChunks 100 (str "H") [str "AAAA", str "BB"] (str "F") 5
      = some [str "H\n\nA", str "H\n\nA", str "H\n\nA", str "H\n\nA", str "H\n\n\n\n",
          str "H\n\nB", str "H\n\nB", str "H\n\n\n\n", str "H\n\nF"] := by
  rfl

/-! ## Supporting lemmas for the cache and deduplication -/

theorem assocSet_self_mem (l : List (Str × Str)) (k v : Str) : (k, v) ∈ assocSet l k v := by
  by_cases hk : l.any (fun e => e.1 = k) = true
  · rw [assocSet, if_pos hk]
    rw [List.any_eq_true] at hk
    obtain ⟨e0, he0, hk0⟩ := hk
    rw [decide_eq_true_eq] at hk0
    rw [List.mem_map]
    exact ⟨e0, he0, by rw [if_pos hk0]⟩
  · rw [assocSet, if_neg hk]
    simp

theorem mem_assocSet_of_mem {l : List (Str × Str)} {e : Str × Str} (k v : Str)
    (he : e ∈ l) (hne : e.1 ≠ k) : e ∈ assocSet l k v := by
  by_cases hk : l.any (fun x => x.1 = k) = true
  · rw [assocSet, if_pos hk, List.mem_map]
    exact ⟨e, he, by rw [if_neg hne]⟩
  · rw [assocSet, if_neg hk, List.mem_append]
    exact Or.inl he

theorem key_of_mem_assocSet {l : List (Str × Str)} {e : Str × Str} {k v : Str}
    (he : e ∈ assocSet l k v) : e.1 = k ∨ e ∈ l := by
  by_cases hk : l.any (fun x => x.1 = k) = true
  · rw [assocSet, if_pos hk, List.mem_map] at he
    obtain ⟨e0, he0, heq⟩ := he
    by_cases h0 : e0.1 = k
    · rw [if_pos h0] at heq
      subst heq
      exact Or.inl rfl
    · rw [if_neg h0] at heq
      subst heq
      exact Or.inr he0
  · rw [assocSet, if_neg hk, List.mem_append] at he
    rcases he with he | he
    · exact Or.inr he
    · rw [List.mem_singleton] at he
      subst he
      exact Or.inl rfl

theorem cacheAdd_pos {c : CacheModel} {src : Str} (h ts : Str)
    (hmem : c.articles.any (fun p => p.1 = src) = true) :
    cacheAdd c src h ts
      = ⟨c.version, c.lastUpdated,
          c.articles.map (fun p => if p.1 = src then (p.1, assocSet p.2 h ts) else p)⟩ := by
  unfold cacheAdd
  rw [if_pos hmem]

theorem cacheAdd_neg {c : CacheModel} {src : Str} (h ts : Str)
    (hmem : ¬ c.articles.any (fun p => p.1 = src) = true) :
    cacheAdd c src h ts = ⟨c.version, c.lastUpdated, c.articles ++ [(src, [(h, ts)])]⟩ := by
  unfold cacheAdd
  rw [if_neg hmem]

theorem cacheHas_iff (c : CacheModel) (h : Str) :
    cacheHas c h = true ↔ ∃ p ∈ c.articles, ∃ e ∈ p.2, e.1 = h := by
  simp [cacheHas, List.any_eq_true]

theorem cacheHas_cacheAdd (c : CacheModel) (src h ts h' : Str) :
    cacheHas (cacheAdd c src h ts) h' = true ↔ (h' = h ∨ cacheHas c h' = true) := by
  rw [cacheHas_iff, cacheHas_iff]
  by_cases hmem : c.articles.any (fun p => p.1 = src) = true
  · rw [cacheAdd_pos h ts hmem]
    constructor
    · rintro ⟨p, hp, e, he, heq⟩
      simp only [List.mem_map] at hp
      obtain ⟨p0, hp0, hpeq⟩ := hp
      by_cases hps : p0.1 = src
      · rw [if_pos hps] at hpeq
        subst hpeq
        rcases key_of_mem_assocSet he with hke | hke
        · exact Or.inl (by rw [← heq, hke])
        · exact Or.inr ⟨p0, hp0, e, hke, heq⟩
      · rw [if_neg hps] at hpeq
        subst hpeq
        exact Or.inr ⟨p0, hp0, e, he, heq⟩
    · rintro (rfl | ⟨p, hp, e, he, heq⟩)
      · rw [List.any_eq_true] at hmem
        obtain ⟨p0, hp0, hps⟩ := hmem
        rw [decide_eq_true_eq] at hps
        refine ⟨(p0.1, assocSet p0.2 h' ts), ?_, (h', ts), assocSet_self_mem _ _ _, rfl⟩
        rw [List.mem_map]
        exact ⟨p0, hp0, by rw [if_pos hps]⟩
      · by_cases hps : p.1 = src
        · by_cases heh : e.1 = h
          · refine ⟨(p.1, assocSet p.2 h ts), ?_, (h, ts), assocSet_self_mem _ _ _, by rw [← heq, heh]⟩
            rw [List.mem_map]
            exact ⟨p, hp, by rw [if_pos hps]⟩
          · refine ⟨(p.1, assocSet p.2 h ts), ?_, e, mem_assocSet_of_mem h ts he heh, heq⟩
            rw [List.mem_map]
            exact ⟨p, hp, by rw [if_pos hps]⟩
        · refine ⟨p, ?_, e, he, heq⟩
          rw [List.mem_map]
          exact ⟨p, hp, by rw [if_neg hps]⟩
  · rw [cacheAdd_neg h ts hmem]
    constructor
    · rintro ⟨p, hp, e, he, heq⟩
      simp only [List.mem_append, List.mem_singleton] at hp
      rcases hp with hp | hp
      · exact Or.inr ⟨p, hp, e, he, heq⟩
      · subst hp
        simp only [List.mem_singleton] at he
        subst he
        exact Or.inl heq.symm
    · rintro (rfl | ⟨p, hp, e, he, heq⟩)
      · exact ⟨(src, [(h', ts)]), by simp, (h', ts), by simp, rfl⟩
      · exact ⟨p, by simp [hp], e, he, heq⟩

theorem cacheHas_cacheAdd_self (c : CacheModel) (src h ts : Str) :
    cacheHas (cacheAdd c src h ts) h = true :=
  (cacheHas_cacheAdd c src h ts h).mpr (Or.inl rfl)

theorem cacheHas_cacheAdd_of {c : CacheModel} {h' : Str} (src h ts : Str)
    (hc : cacheHas c h' = true) : cacheHas (cacheAdd c src h ts) h' = true :=
  (cacheHas_cacheAdd c src h ts h').mpr (Or.inr hc)

theorem cacheHas_cacheAdd_ne {c : CacheModel} {h' : Str} (src h ts : Str) (hne : h' ≠ h)
    (hc : cacheHas c h' = false) : cacheHas (cacheAdd c src h ts) h' = false := by
  rw [Bool.eq_false_iff] at hc ⊢
  intro hcontra
  rcases (cacheHas_cacheAdd c src h ts h').mp hcontra with heq | hhas
  · exact hne heq
  · exact hc hhas

theorem filterNew_all_seen {now : Str} :
    ∀ {l : List Article} {c : CacheModel},
      (∀ a ∈ l, cacheHas c (getHash a) = true) → filterNew now c l = ([], c) := by
  intro l
  induction l with
  | nil => intro c _; rfl
  | cons a rest ih =>
      intro c h
      simp only [filterNew]
      rw [if_pos (h a (by simp))]
      exact ih (fun b hb => h b (by simp [hb]))

theorem filterNew_cache_mono {now h : Str} :
    ∀ {l : List Article} {c : CacheModel},
      cacheHas c h = true → cacheHas (filterNew now c l).2 h = true := by
  intro l
  induction l with
  | nil => intro c hc; exact hc
  | cons a rest ih =>
      intro c hc
      simp only [filterNew]
      by_cases hseen : cacheHas c (getHash a) = true
      · rw [if_pos hseen]
        exact ih hc
      · rw [if_neg hseen]
        exact ih (cacheHas_cacheAdd_of _ _ _ hc)

theorem filterNew_hash_recorded {now : Str} :
    ∀ {l : List Article} {c : CacheModel} (a : Article),
      a ∈ l → cacheHas (filterNew now c l).2 (getHash a) = true := by
  intro l
  induction l with
  | nil => intro c a ha; exact absurd ha (by simp)
  | cons b rest ih =>
      intro c a ha
      simp only [filterNew]
      by_cases hseen : cacheHas c (getHash b) = true
      · rw [if_pos hseen]
        rcases List.mem_cons.mp ha with rfl | ha'
        · exact filterNew_cache_mono hseen
        · exact ih a ha'
      · rw [if_neg hseen]
        rcases List.mem_cons.mp ha with rfl | ha'
        · exact filterNew_cache_mono (cacheHas_cacheAdd_self _ _ _ _)
        · exact ih a ha'

theorem filterNew_keeps_all {now : Str} :
    ∀ {l : List Article} {c : CacheModel},
      (∀ a ∈ l, cacheHas c (getHash a) = false) →
      l.Pairwise (fun x y => getHash x ≠ getHash y) →
      (filterNew now c l).1 = l := by
  intro l
  induction l with
  | nil => intro c _ _; rfl
  | cons a rest ih =>
      intro c hnew hdist
      rw [List.pairwise_cons] at hdist
      obtain ⟨hhead, htail⟩ := hdist
      simp only [filterNew]
      rw [if_neg (by rw [hnew a (by simp)]; simp)]
      have hrest : ∀ b ∈ rest, cacheHas (cacheAdd c a.source (getHash a) (tsOf now a)) (getHash b) = false := by
        intro b hb
        exact cacheHas_cacheAdd_ne _ _ _ (Ne.symm (hhead b hb)) (hnew b (by simp [hb]))
      rw [ih hrest htail]

/-! ## C3: idempotent dedup -/

/-- C3 (counterexample): "for every list of Article values, ... the first
call to filterNew returns the full list" fails when the list itself
contains two articles with the same fingerprint: with an empty loaded
cache and the same article twice, the second occurrence is filtered
within the first call, which returns a one-element list. -/
theorem c3_counterexample :
    cacheHas (emptyCache (str "t0"))
        (getHash (mkArticle ⟨none, some (str "https://a.com/x"), str "qiita", none⟩)) = false ∧
      ¬ ((filterNew (str "now") (emptyCache (str "t0"))
            [mkArticle ⟨none, some (str "https://a.com/x"), str "qiita", none⟩,
              mkArticle ⟨none, some (str "https://a.com/x"), str "qiita", none⟩]).1
          = [mkArticle ⟨none, some (str "https://a.com/x"), str "qiita", none⟩,
              mkArticle ⟨none, some (str "https://a.com/x"), str "qiita", none⟩]) := by
  constructor
  · rfl
  · decide

/-- C3 (amended): for every list of articles with pairwise-distinct
fingerprints, starting from a cache containing none of their hashes, the
first `filterNew` call returns the full list (recording every hash as it
is selected) and an immediately following second call on the resulting
cache returns the empty list. -/
theorem c3_idempotent_dedup (now now' : Str) (c : CacheModel) (l : List Article)
    (hnew : ∀ a ∈ l, cacheHas c (getHash a) = false)
    (hdist : l.Pairwise (fun x y => getHash x ≠ getHash y)) :
    (filterNew now c l).1 = l ∧ (filterNew now' (filterNew now c l).2 l).1 = [] := by
  refine ⟨filterNew_keeps_all hnew hdist, ?_⟩
  rw [filterNew_all_seen (fun a ha => filterNew_hash_recorded a ha)]

/-- C3 (witness): two distinct articles against the empty cache — the
first call keeps both, the second call keeps none. -/
theorem c3_witness :
    (filterNew (str "n1") (emptyCache (str "t0"))
        [mkArticle ⟨none, some (str "https://a.com/x"), str "qiita", none⟩,
          mkArticle ⟨none, some (str "https://a.com/y"), str "zenn", none⟩]).1
      = [mkArticle ⟨none, some (str "https://a.com/x"), str "qiita", none⟩,
          mkArticle ⟨none, some (str "https://a.com/y"), str "zenn", none⟩] ∧
    (filterNew (str "n2")
        (filterNew (str "n1") (emptyCache (str "t0"))
          [mkArticle ⟨none, some (str "https://a.com/x"), str "qiita", none⟩,
            mkArticle ⟨none, some (str "https://a.com/y"), str "zenn", none⟩]).2
        [mkArticle ⟨none, some (str "https://a.com/x"), str "qiita", none⟩,
          mkArticle ⟨none, some (str "https://a.com/y"), str "zenn", none⟩]).1 = [] :=
  c3_idempotent_dedup (str "n1") (str "n2") (emptyCache (str "t0"))
    [mkArticle ⟨none, some (str "https://a.com/x"), str "qiita", none⟩,
      mkArticle ⟨none, some (str "https://a.com/y"), str "zenn", none⟩]
    (by decide) (by decide)

/-! ## C10: URL-less articles collapse to one fingerprint per source -/

theorem getHash_mkArticle (i : ArticleIn) :
    getHash (mkArticle i) = i.source ++ [':'] ++ normalizeUrl i.url := rfl

theorem url_mkArticle (i : ArticleIn) : (mkArticle i).url = normalizeUrl i.url := rfl

theorem source_mkArticle (i : ArticleIn) : (mkArticle i).source = i.source := rfl

theorem urlless_count_zero (now skey : Str) :
    ∀ (l : List Article) (c : CacheModel),
      (∀ a ∈ l, a.url = [] → a.source = skey → getHash a = skey ++ [':']) →
      cacheHas c (skey ++ [':']) = true →
      ((filterNew now c l).1.filter
          (fun a => decide (a.url = []) && decide (a.source = skey))).length = 0 := by
  intro l
  induction l with
  | nil => intro c _ _; rfl
  | cons a rest ih =>
      intro c hl hhas
      simp only [filterNew]
      by_cases hseen : cacheHas c (getHash a) = true
      · rw [if_pos hseen]
        exact ih _ (fun b hb => hl b (by simp [hb])) hhas
      · rw [if_neg hseen]
        have hpred : (decide (a.url = []) && decide (a.source = skey)) = false := by
          by_cases hu : a.url = []
          · by_cases hs : a.source = skey
            · exact absurd (by rw [hl a (by simp) hu hs]; exact hhas) hseen
            · simp [hs]
          · simp [hu]
        rw [List.filter_cons]
        rw [hpred]
        simp only [Bool.false_eq_true, if_neg (by simp : ¬ False)]
        exact ih _ (fun b hb => hl b (by simp [hb]))
          (cacheHas_cacheAdd_of _ _ _ hhas)

theorem urlless_count_le_one (now skey : Str) :
    ∀ (l : List Article) (c : CacheModel),
      (∀ a ∈ l, a.url = [] → a.source = skey → getHash a = skey ++ [':']) →
      ((filterNew now c l).1.filter
          (fun a => decide (a.url = []) && decide (a.source = skey))).length ≤ 1 := by
  intro l
  induction l with
  | nil => intro c _; simp [filterNew]
  | cons a rest ih =>
      intro c hl
      simp only [filterNew]
      by_cases hseen : cacheHas c (getHash a) = true
      · rw [if_pos hseen]
        exact ih _ (fun b hb => hl b (by simp [hb]))
      · rw [if_neg hseen]
        by_cases hpred : (decide (a.url = []) && decide (a.source = skey)) = true
        · have hu : a.url = [] := by
            have := (Bool.and_eq_true _ _).mp hpred
            exact of_decide_eq_true this.1
          have hs : a.source = skey := by
            have := (Bool.and_eq_true _ _).mp hpred
            exact of_decide_eq_true this.2
          have hhash : getHash a = skey ++ [':'] := hl a (by simp) hu hs
          rw [List.filter_cons, hpred]
          simp only [if_pos trivial]
          have hzero := urlless_count_zero now skey rest
            (cacheAdd c a.source (getHash a) (tsOf now a))
            (fun b hb => hl b (by simp [hb]))
            (by rw [← hhash]; exact cacheHas_cacheAdd_self _ _ _ _)
          simp only [List.length_cons, hzero]
          omega
        · rw [List.filter_cons, if_neg hpred]
          exact ih _ (fun b hb => hl b (by simp [hb]))

/-- C10: two articles built with the same source and an absent or empty
URL normalize to the empty URL and get the same fingerprint
`sha256(source + ':')`, regardless of title, publication time or any
other field; consequently a `filterNew` call keeps at most one URL-less
article per source, and keeps none once the cache (shared across runs)
already holds that fingerprint. -/
theorem c10_urlless_collapse (i1 i2 : ArticleIn) (now : Str) (c : CacheModel)
    (inputs : List ArticleIn) (skey : Str)
    (hsrc : i1.source = i2.source)
    (hu1 : i1.url = none ∨ i1.url = some []) (hu2 : i2.url = none ∨ i2.url = some []) :
    getHash (mkArticle i1) = getHash (mkArticle i2) ∧
    ((filterNew now c (inputs.map mkArticle)).1.filter
        (fun a => decide (a.url = []) && decide (a.source = skey))).length ≤ 1 ∧
    (cacheHas c (skey ++ [':']) = true →
      ((filterNew now c (inputs.map mkArticle)).1.filter
          (fun a => decide (a.url = []) && decide (a.source = skey))).length = 0) := by
  have hnorm : ∀ u : Option Str, (u = none ∨ u = some []) → normalizeUrl u = [] := by
    rintro u (rfl | rfl)
    · rfl
    · rfl
  have hl : ∀ a ∈ inputs.map mkArticle, a.url = [] → a.source = skey → getHash a = skey ++ [':'] := by
    intro a ha hu hs
    rw [List.mem_map] at ha
    obtain ⟨i, _, rfl⟩ := ha
    rw [getHash_mkArticle, ← url_mkArticle, hu, ← source_mkArticle, hs, List.append_nil]
  refine ⟨?_, urlless_count_le_one now skey _ _ hl, fun hhas => urlless_count_zero now skey _ _ hl hhas⟩
  rw [getHash_mkArticle, getHash_mkArticle, hsrc, hnorm i1.url hu1, hnorm i2.url hu2]

/-- C10 (witness): two URL-less `zenn` articles with different titles and
times share a fingerprint; a run over three inputs keeps at most one
URL-less `zenn` article, and zero once the fingerprint is in the cache. -/
theorem c10_witness :
    getHash (mkArticle ⟨some (str "T1"), none, str "zenn", some (str "2024-01-01")⟩)
        = getHash (mkArticle ⟨some (str "T2"), some [], str "zenn", none⟩) ∧
      ((filterNew (str "now") (emptyCache (str "t0"))
          ([⟨some (str "T1"), none, str "zenn", some (str "2024-01-01")⟩,
            ⟨some (str "T2"), some [], str "zenn", none⟩,
            ⟨some (str "T3"), some (str "https://a.com/x"), str "zenn", none⟩].map mkArticle)).1.filter
          (fun a => decide (a.url = []) && decide (a.source = str "zenn"))).length ≤ 1 ∧
      (cacheHas (emptyCache (str "t0")) (str "zenn" ++ [':']) = true →
        ((filterNew (str "now") (emptyCache (str "t0"))
            ([⟨some (str "T1"), none, str "zenn", some (str "2024-01-01")⟩,
              ⟨some (str "T2"), some [], str "zenn", none⟩,
              ⟨some (str "T3"), some (str "https://a.com/x"), str "zenn", none⟩].map mkArticle)).1.filter
            (fun a => decide (a.url = []) && decide (a.source = str "zenn"))).length = 0) :=
  c10_urlless_collapse
    ⟨some (str "T1"), none, str "zenn", some (str "2024-01-01")⟩
    ⟨some (str "T2"), some [], str "zenn", none⟩
    (str "now") (emptyCache (str "t0"))
    [⟨some (str "T1"), none, str "zenn", some (str "2024-01-01")⟩,
      ⟨some (str "T2"), some [], str "zenn", none⟩,
      ⟨some (str "T3"), some (str "https://a.com/x"), str "zenn", none⟩]
    (str "zenn") (by decide) (by decide) (by decide)

/-! ## C4: cache load on version mismatch -/

/-- C4 (counterexample): the claim that a version-mismatched well-formed
store is reset *and persisted (rewritten) to disk* is false: `load` only
replaces the in-memory cache in that branch — with a stored `"0.9"` cache
holding one entry, the disk afterwards still holds the old store, not the
rewritten empty one. -/
theorem c4_counterexample :
    (loadModel (str "t2") (DiskData.stored ⟨str "0.9", str "t0", [(str "qiita", [(str "h1", str "t1")])]⟩)).cache
        = emptyCache (str "t2") ∧
      (loadModel (str "t2") (DiskData.stored ⟨str "0.9", str "t0", [(str "qiita", [(str "h1", str "t1")])]⟩)).raised
        = false ∧
      ¬ (loadModel (str "t2") (DiskData.stored ⟨str "0.9", str "t0", [(str "qiita", [(str "h1", str "t1")])]⟩)).disk
        = DiskData.stored (emptyCache (str "t2")) := by
  refine ⟨rfl, rfl, ?_⟩
  decide

/-- C4 (amended): on a version mismatch `load` resets the in-memory store
to the empty store and proceeds without raising, but does *not* rewrite
the disk at that point (the file keeps the old store until a later
`save`); the empty store is persisted during `load` only for a missing or
malformed file. -/
theorem c4_version_mismatch (now raw : Str) (c : CacheModel) (h : c.version ≠ cacheVersion) :
    loadModel now (DiskData.stored c) = ⟨emptyCache now, DiskData.stored c, false⟩ ∧
      loadModel now (DiskData.malformed raw)
        = ⟨emptyCache now, DiskData.stored (emptyCache now), false⟩ ∧
      loadModel now DiskData.absent
        = ⟨emptyCache now, DiskData.stored (emptyCache now), false⟩ := by
  refine ⟨?_, rfl, rfl⟩
  simp only [loadModel]
  rw [if_pos h]

/-- C4 (witness): concrete instance — disk version `"0.9"`, expected
`"1.0"`. -/
theorem c4_witness :
    loadModel (str "t2") (DiskData.stored ⟨str "0.9", str "t0", [(str "qiita", [(str "h1", str "t1")])]⟩)
      = ⟨emptyCache (str "t2"),
          DiskData.stored ⟨str "0.9", str "t0", [(str "qiita", [(str "h1", str "t1")])]⟩, false⟩ :=
  (c4_version_mismatch (str "t2") (str "x") ⟨str "0.9", str "t0", [(str "qiita", [(str "h1", str "t1")])]⟩
    (by decide)).1

/-! ## C5: fingerprint stability -/

theorem dropWhile_eq_self_of_jsTrim {u : Str} (h : jsTrim u = u) : u.dropWhile isJsWs = u := by
  have hsub : List.Sublist (u.dropWhile isJsWs) u := List.dropWhile_sublist _
  apply hsub.eq_of_length
  have h1 : (u.dropWhile isJsWs).length ≤ u.length := hsub.length_le
  have h2 : ((u.dropWhile isJsWs).reverse.dropWhile isJsWs).length
      ≤ (u.dropWhile isJsWs).reverse.length :=
    (List.dropWhile_sublist _).length_le
  have h3 := congrArg List.length h
  simp only [jsTrim, List.length_reverse] at h2 h3
  omega

theorem head_not_ws_of_jsTrim {a : Char} {u' : Str} (h : (a :: u').dropWhile isJsWs = a :: u') :
    isJsWs a = false := by
  by_cases hwa : isJsWs a = true
  · rw [List.dropWhile_cons, if_pos hwa] at h
    have hle : (u'.dropWhile isJsWs).length ≤ u'.length := (List.dropWhile_sublist _).length_le
    have := congrArg List.length h
    simp only [List.length_cons] at this
    omega
  · rw [Bool.eq_false_iff]
    intro hc
    exact hwa hc

theorem jsTrim_concat_nonws {u : Str} {ch : Char} (h : jsTrim u = u) (hne : u ≠ [])
    (hws : isJsWs ch = false) : jsTrim (u ++ [ch]) = u ++ [ch] := by
  obtain ⟨a, u', rfl⟩ : ∃ a u', u = a :: u' := by
    cases u with
    | nil => exact absurd rfl hne
    | cons a u' => exact ⟨a, u', rfl⟩
  have hdrop := dropWhile_eq_self_of_jsTrim h
  have hwa : isJsWs a = false := head_not_ws_of_jsTrim hdrop
  have hfront : ((a :: u') ++ [ch]).dropWhile isJsWs = (a :: u') ++ [ch] := by
    rw [List.cons_append, List.dropWhile_cons, if_neg (by rw [hwa]; simp)]
  have hrev : ((a :: u') ++ [ch]).reverse = ch :: (a :: u').reverse := by
    rw [List.reverse_append]
    simp
  rw [jsTrim, hfront, hrev, List.dropWhile_cons, if_neg (by rw [hws]; simp)]
  simp

theorem preNorm_concat_slash {u : Str} (h : jsTrim u = u) (hne : u ≠ [])
    (hsl : ¬ u.getLast? = some '/') : preNorm (u ++ ['/']) = u ∧ preNorm u = u := by
  constructor
  · simp only [preNorm]
    rw [jsTrim_concat_nonws h hne (by decide), List.getLast?_concat, if_pos rfl]
    exact List.dropLast_concat
  · simp only [preNorm]
    rw [h, if_neg hsl]

/-- C5 (counterexample): "two URLs differing in any other way yield
distinct fingerprints for the same source" is false: `" abc"` and `"abc"`
differ only by leading whitespace — not a trailing-slash difference and
not a tracking-parameter difference (neither even contains `'?'`) — yet
`_normalizeUrl` trims both to `"abc"`, so both articles get the same
fingerprint. -/
theorem c5_counterexample :
    ¬ str " abc" = str "abc" ∧
      ¬ str " abc" = str "abc" ++ ['/'] ∧
      ¬ str "abc" = str " abc" ++ ['/'] ∧
      (str " abc").all (fun c => c ≠ '?') = true ∧
      (str "abc").all (fun c => c ≠ '?') = true ∧
      getHash (mkArticle ⟨none, some (str " abc"), str "qiita", none⟩)
        = getHash (mkArticle ⟨none, some (str "abc"), str "qiita", none⟩) := by
  decide

/-- C5 (amended): for a fixed source, (i) adding/removing a single
trailing slash on a trimmed URL that does not otherwise end in `'/'`
leaves the fingerprint unchanged; (ii) for URLs that parse, changing only
tracking parameters from the fixed removal set (more generally, any two
parses agreeing after the removal) leaves the fingerprint unchanged;
(iii) two URLs collapse to the same fingerprint exactly when their
normalized forms coincide (SHA-256 modelled injective) — so other
differences (case, whitespace, extra slashes, unparseable strings) may or
may not change the fingerprint depending only on the normalized form. -/
theorem c5_fingerprint_stability (u u1 u2 : Str) (U1 U2 : JsUrl) (i1 i2 : ArticleIn)
    (ht : jsTrim u = u) (hne : u ≠ []) (hsl : ¬ u.getLast? = some '/')
    (h1 : u1 ≠ []) (h2 : u2 ≠ [])
    (hp1 : parseUrl (preNorm u1) = some U1) (hp2 : parseUrl (preNorm u2) = some U2)
    (hq : removeUtm U1 = removeUtm U2)
    (hsrc : i1.source = i2.source) :
    normalizeUrlStr (u ++ ['/']) = normalizeUrlStr u ∧
      normalizeUrlStr u1 = normalizeUrlStr u2 ∧
      (getHash (mkArticle i1) = getHash (mkArticle i2)
        ↔ normalizeUrl i1.url = normalizeUrl i2.url) := by
  obtain ⟨hps, hpu⟩ := preNorm_concat_slash ht hne hsl
  refine ⟨?_, ?_, ?_⟩
  · simp only [normalizeUrlStr]
    rw [if_neg (by simp : ¬ (u ++ ['/'] = [])), if_neg hne, hps, hpu]
  · rw [show normalizeUrlStr u1 = serializeUrl (removeUtm U1) by
        simp [normalizeUrlStr, h1, hp1],
      show normalizeUrlStr u2 = serializeUrl (removeUtm U2) by
        simp [normalizeUrlStr, h2, hp2],
      hq]
  · rw [getHash_mkArticle, getHash_mkArticle, hsrc]
    constructor
    · intro he
      exact List.append_cancel_left he
    · intro he
      rw [he]

/-- C5 (witness): concrete instances — trailing slash on
`"https://a.com/x"`, the `utm_source` parameter on `"https://a.com/p"`,
and the fingerprint-iff for two same-source articles. -/
theorem c5_witness :
    normalizeUrlStr (str "https://a.com/x" ++ ['/']) = normalizeUrlStr (str "https://a.com/x") ∧
      normalizeUrlStr (str "https://a.com/p?utm_source=1") = normalizeUrlStr (str "https://a.com/p") ∧
      (getHash (mkArticle ⟨none, some (str "https://a.com/q"), str "hackernews", none⟩)
          = getHash (mkArticle ⟨none, some (str "https://a.com/q2"), str "hackernews", none⟩)
        ↔ normalizeUrl (some (str "https://a.com/q")) = normalizeUrl (some (str "https://a.com/q2"))) :=
  c5_fingerprint_stability (str "https://a.com/x")
    (str "https://a.com/p?utm_source=1") (str "https://a.com/p")
    ⟨str "https", str "a.com", str "/p", [(str "utm_source", str "1")]⟩
    ⟨str "https", str "a.com", str "/p", []⟩
    ⟨none, some (str "https://a.com/q"), str "hackernews", none⟩
    ⟨none, some (str "https://a.com/q2"), str "hackernews", none⟩
    (by decide) (by decide) (by decide) (by decide) (by decide)
    (by decide) (by decide) (by decide) (by decide)

/-! ## C6: retry executor attempt semantics -/

theorem executeGo_attempts_le {E A : Type} (fn : Nat → Except E A) (cfg : RetryConfig)
    (rs : Nat → ℚ) : ∀ (rem a : Nat), (executeGo fn cfg rs a rem).2.1 ≤ rem + 1 := by
  intro rem
  induction rem with
  | zero => intro a; exact le_refl 1
  | succ n ih =>
      intro a
      simp only [executeGo]
      cases hfa : fn a with
      | ok v => simp
      | error e =>
          simp only []
          have := ih (a + 1)
          omega

theorem executeGo_allfail {E A : Type} (fn : Nat → Except E A) (cfg : RetryConfig)
    (rs : Nat → ℚ) :
    ∀ (rem a : Nat), (∀ i, a ≤ i → i ≤ a + rem → ∃ e, fn i = .error e) →
      (executeGo fn cfg rs a rem).1 = fn (a + rem) := by
  intro rem
  induction rem with
  | zero => intro a _; rfl
  | succ n ih =>
      intro a hall
      obtain ⟨e, he⟩ := hall a (le_refl a) (by omega)
      simp only [executeGo, he]
      have := ih (a + 1) (fun i hi1 hi2 => hall i (by omega) (by omega))
      rw [this]
      congr 1
      omega

theorem executeGo_success {E A : Type} (fn : Nat → Except E A) (cfg : RetryConfig)
    (rs : Nat → ℚ) :
    ∀ (k rem a : Nat) (v : A), k ≤ rem →
      (∀ j, a ≤ j → j < a + k → ∃ e, fn j = .error e) →
      fn (a + k) = .ok v →
      (executeGo fn cfg rs a rem).1 = .ok v ∧ (executeGo fn cfg rs a rem).2.1 = k + 1 := by
  intro k
  induction k with
  | zero =>
      intro rem a v _ _ hok
      rw [Nat.add_zero] at hok
      cases rem with
      | zero => refine ⟨?_, ?_⟩ <;> simp [executeGo, hok]
      | succ n => refine ⟨?_, ?_⟩ <;> simp [executeGo, hok]
  | succ k ih =>
      intro rem a v hk hprev hok
      cases rem with
      | zero => omega
      | succ n =>
          obtain ⟨e, he⟩ := hprev a (le_refl a) (by omega)
          simp only [executeGo, he]
          have hih := ih n (a + 1) v (by omega)
            (fun j hj1 hj2 => hprev j (by omega) (by omega))
            (by rw [show a + 1 + k = a + (k + 1) by omega]; exact hok)
          exact ⟨hih.1, by rw [hih.2]⟩

/-- C6: `RetryHandler.execute` makes at most `maxRetries + 1` invocations
of the wrapped operation; if every allowed invocation fails it returns
exactly the outcome of the last invocation (the last error, unwrapped);
and if the first success happens at attempt `i`, it returns that result
after exactly `i + 1` invocations, making no further ones. -/
theorem c6_retry_executor {E A : Type} (fn : Nat → Except E A) (cfg : RetryConfig)
    (rs : Nat → ℚ) :
    (execute fn cfg rs).2.1 ≤ cfg.maxRetries + 1 ∧
      ((∀ i, i ≤ cfg.maxRetries → ∃ e, fn i = .error e) →
        (execute fn cfg rs).1 = fn cfg.maxRetries) ∧
      (∀ i v, i ≤ cfg.maxRetries → (∀ j, j < i → ∃ e, fn j = .error e) → fn i = .ok v →
        (execute fn cfg rs).1 = .ok v ∧ (execute fn cfg rs).2.1 = i + 1) := by
  refine ⟨executeGo_attempts_le fn cfg rs cfg.maxRetries 0, ?_, ?_⟩
  · intro hall
    have := executeGo_allfail fn cfg rs cfg.maxRetries 0
      (fun i hi1 hi2 => hall i (by omega))
    rw [Nat.zero_add] at this
    exact this
  · intro i v hi hprev hok
    exact executeGo_success fn cfg rs i cfg.maxRetries 0 v hi
      (fun j hj1 hj2 => hprev j (by omega))
      (by rw [Nat.zero_add]; exact hok)

/-- C6 (witness): two failures then a success under `maxRetries = 3`
yield the success result after exactly three invocations. -/
theorem c6_witness :
    (execute (fun i => if i < 2 then Except.error (i + 1) else Except.ok (42 : Nat))
        ⟨3, 1000, 10000, true⟩ (fun _ => 1)).1 = Except.ok 42 ∧
      (execute (fun i => if i < 2 then Except.error (i + 1) else Except.ok (42 : Nat))
        ⟨3, 1000, 10000, true⟩ (fun _ => 1)).2.1 = 3 :=
  (c6_retry_executor (fun i => if i < 2 then Except.error (i + 1) else Except.ok (42 : Nat))
      ⟨3, 1000, 10000, true⟩ (fun _ => 1)).2.2 2 42 (by norm_num)
    (fun j hj => ⟨j + 1, by rw [if_pos hj]⟩) (by rfl)

/-! ## C7: delay formula and total-delay bound -/

theorem calculateDelay_lt {cfg : RetryConfig} {r : ℚ} (a : Nat)
    (hr1 : 1/2 ≤ r) (hr2 : r < 3/2) (hmd : 1 ≤ cfg.maxDelay) :
    (calculateDelay cfg r a : ℚ) < (cfg.maxDelay : ℚ) * (3/2) := by
  have hmd0 : (0 : ℚ) < (cfg.maxDelay : ℚ) := by
    have : (1 : ℚ) ≤ (cfg.maxDelay : ℚ) := by exact_mod_cast hmd
    linarith
  have hr0 : (0 : ℚ) ≤ r := by linarith
  have hXle : min ((cfg.baseDelay : ℚ) * 2 ^ a) (cfg.maxDelay : ℚ) ≤ (cfg.maxDelay : ℚ) :=
    min_le_right _ _
  cases hcj : cfg.jitter with
  | true =>
      unfold calculateDelay
      rw [hcj, if_pos rfl]
      have hfl := Int.floor_le (min ((cfg.baseDelay : ℚ) * 2 ^ a) (cfg.maxDelay : ℚ) * r)
      have hstep : min ((cfg.baseDelay : ℚ) * 2 ^ a) (cfg.maxDelay : ℚ) * r
          ≤ (cfg.maxDelay : ℚ) * r := mul_le_mul_of_nonneg_right hXle hr0
      have hlast : (cfg.maxDelay : ℚ) * r < (cfg.maxDelay : ℚ) * (3/2) :=
        mul_lt_mul_of_pos_left hr2 hmd0
      linarith
  | false =>
      unfold calculateDelay
      rw [hcj, if_neg (by simp)]
      have hfl := Int.floor_le (min ((cfg.baseDelay : ℚ) * 2 ^ a) (cfg.maxDelay : ℚ))
      nlinarith

theorem executeGo_delay {E A : Type} (fn : Nat → Except E A) (cfg : RetryConfig)
    (rs : Nat → ℚ) (hr : ∀ i, 1/2 ≤ rs i ∧ rs i < 3/2) (hmd : 1 ≤ cfg.maxDelay) :
    ∀ (rem a : Nat),
      ((executeGo fn cfg rs a rem).2.2 : ℚ) = 0 ∨
        ((executeGo fn cfg rs a rem).2.2 : ℚ) < rem * ((cfg.maxDelay : ℚ) * (3/2)) := by
  have hB0 : (0 : ℚ) ≤ (cfg.maxDelay : ℚ) * (3/2) := by positivity
  intro rem
  induction rem with
  | zero => intro a; left; rfl
  | succ n ih =>
      intro a
      cases hfa : fn a with
      | ok v => left; simp [executeGo, hfa]
      | error e =>
          right
          simp only [executeGo, hfa]
          have hd := calculateDelay_lt a (hr a).1 (hr a).2 hmd
          have hcast : (((calculateDelay cfg (rs a) a + (executeGo fn cfg rs (a + 1) n).2.2 : ℤ)) : ℚ)
              = (calculateDelay cfg (rs a) a : ℚ) + ((executeGo fn cfg rs (a + 1) n).2.2 : ℚ) := by
            push_cast
            ring
          rcases ih (a + 1) with hz | hlt
          · rw [hcast, hz]
            have : (0 : ℚ) ≤ (n : ℚ) * ((cfg.maxDelay : ℚ) * (3/2)) := by positivity
            push_cast
            linarith
          · rw [hcast]
            push_cast
            linarith

/-- C7: `_calculateDelay(a)` is `floor(min(baseDelay * 2^a, maxDelay) * r)`
with jitter and `floor(min(baseDelay * 2^a, maxDelay))` without; and
(amended) for `maxRetries >= 1` and `maxDelay >= 1` the total delay slept
across one `execute` call is strictly below
`maxRetries * maxDelay * 1.5` (the strict bound fails in the degenerate
`maxRetries = 0` / `maxDelay = 0` configurations, where both sides are
zero). -/
theorem c7_delay_formula_and_bound {E A : Type} (cfg : RetryConfig) (fn : Nat → Except E A)
    (rs : Nat → ℚ) (r : ℚ) (a : Nat)
    (hr : ∀ i, 1/2 ≤ rs i ∧ rs i < 3/2)
    (hmr : 1 ≤ cfg.maxRetries) (hmd : 1 ≤ cfg.maxDelay) :
    (cfg.jitter = true →
      calculateDelay cfg r a = ⌊min ((cfg.baseDelay : ℚ) * 2 ^ a) (cfg.maxDelay : ℚ) * r⌋) ∧
      (cfg.jitter = false →
        calculateDelay cfg r a = ⌊min ((cfg.baseDelay : ℚ) * 2 ^ a) (cfg.maxDelay : ℚ)⌋) ∧
      ((execute fn cfg rs).2.2 : ℚ)
        < (cfg.maxRetries : ℚ) * (cfg.maxDelay : ℚ) * (3 / 2) := by
  refine ⟨fun hj => by simp [calculateDelay, hj], fun hj => by simp [calculateDelay, hj], ?_⟩
  have hmr0 : (0 : ℚ) < (cfg.maxRetries : ℚ) := by
    have : (1 : ℚ) ≤ (cfg.maxRetries : ℚ) := by exact_mod_cast hmr
    linarith
  have hmd0 : (0 : ℚ) < (cfg.maxDelay : ℚ) := by
    have : (1 : ℚ) ≤ (cfg.maxDelay : ℚ) := by exact_mod_cast hmd
    linarith
  rcases executeGo_delay fn cfg rs hr hmd cfg.maxRetries 0 with hz | hlt
  · rw [show (execute fn cfg rs).2.2 = (executeGo fn cfg rs 0 cfg.maxRetries).2.2 from rfl, hz]
    positivity
  · rw [show (execute fn cfg rs).2.2 = (executeGo fn cfg rs 0 cfg.maxRetries).2.2 from rfl]
    calc ((executeGo fn cfg rs 0 cfg.maxRetries).2.2 : ℚ)
        < (cfg.maxRetries : ℚ) * ((cfg.maxDelay : ℚ) * (3/2)) := hlt
      _ = (cfg.maxRetries : ℚ) * (cfg.maxDelay : ℚ) * (3/2) := by ring

/-- C7 (counterexample): the claimed *strict* bound
"total delay < maxRetries * maxDelay * 1.5" fails for `maxRetries = 0`:
a single failing attempt sleeps a total of 0, and the bound is
`0 * 10000 * 1.5 = 0`, so the strict inequality is false. -/
theorem c7_counterexample :
    ((execute (fun _ => (Except.error 0 : Except Nat Nat)) ⟨0, 1000, 10000, true⟩
        (fun _ => 1)).2.2 : ℚ) = 0 ∧
      ¬ ((execute (fun _ => (Except.error 0 : Except Nat Nat)) ⟨0, 1000, 10000, true⟩
            (fun _ => 1)).2.2 : ℚ)
        < (((⟨0, 1000, 10000, true⟩ : RetryConfig).maxRetries : ℚ)
            * ((⟨0, 1000, 10000, true⟩ : RetryConfig).maxDelay : ℚ) * (3 / 2)) := by
  constructor
  · rfl
  · intro hcontra
    rw [show ((execute (fun _ => (Except.error 0 : Except Nat Nat)) ⟨0, 1000, 10000, true⟩
        (fun _ => 1)).2.2 : ℚ) = 0 from rfl] at hcontra
    norm_num at hcontra

/-- C7 (witness): with the production configuration
(`maxRetries = 3`, `maxDelay = 10000`, jitter on, all jitter draws 1) the
total delay of a run is strictly below `3 * 10000 * 1.5`. -/
theorem c7_witness :
    ((execute (fun _ => (Except.error 0 : Except Nat Nat)) ⟨3, 1000, 10000, true⟩
        (fun _ => 1)).2.2 : ℚ) < ((3 : Nat) : ℚ) * ((10000 : Nat) : ℚ) * (3 / 2) :=
  (c7_delay_formula_and_bound ⟨3, 1000, 10000, true⟩
      (fun _ => (Except.error 0 : Except Nat Nat)) (fun _ => 1) 1 0
      (fun _ => ⟨by norm_num, by norm_num⟩) (by norm_num) (by norm_num)).2.2

/-! ## C8: webhook URL validation on the delivery path -/

/-- C8 (counterexample): the delivery path does not validate the webhook
URL shape: `send` only checks that the URL is non-empty, and
`isValidWebhookUrl` is never called on the send path — a non-`discord.com`
URL is rejected by the validator yet every message is still handed to the
transport. -/
theorem c8_counterexample :
    isValidWebhookUrl (str "https://evil.com/api/webhooks/123") = false ∧
      sendModel (str "https://evil.com/api/webhooks/123") [str "hello"]
        = Except.ok [str "hello"] := by
  constructor
  · decide
  · rfl

/-- C8 (amended): the static helper `isValidWebhookUrl` implements
exactly the claimed shape check (hostname `discord.com`, path starting
with `/api/webhooks/`), but the delivery path refuses to send only when
the configured URL is empty/unset: for every non-empty URL — even one the
validator rejects — `send` proceeds and posts all messages. -/
theorem c8_no_validation_on_send (u : Str) (msgs : List Str) (hne : u ≠ [])
    (_hinvalid : isValidWebhookUrl u = false) :
    sendModel u msgs = Except.ok msgs := by
  unfold sendModel
  rw [if_neg hne]

/-- C8 (witness): a localhost URL fails the validator but is sent
anyway. -/
theorem c8_witness :
    sendModel (str "http://localhost/hook") [str "m"] = Except.ok [str "m"] :=
  c8_no_validation_on_send (str "http://localhost/hook") [str "m"] (by decide) (by decide)

end NewsNotifier
